import Mathlib

/-!
Verification of the core of the voice-agent performance optimiser:
the cycle orchestrator loop, the pass-rate calculator, the two status
state machines, the LCS diff engine, the result evaluator's explanation
contract, the prompt optimizer, and the retry/backoff helper.  Every
definition is a shallow embedding of the corresponding TypeScript
function; asynchronous collaborators (the generative-model client, the
test executor) are modelled as explicit oracle parameters, and database
writes are modelled by the values the code would persist.
-/

/-! ### Status state machines (src/backend/src/utils/state-machine.ts) -/

inductive OptimizationStatus
  | generated
  | accepted
  | rejected
deriving DecidableEq, Fintype

inductive CycleStatus
  | running
  | paused
  | completed
  | cancelled
deriving DecidableEq, Fintype

/-- Embedding of `OPTIMIZATION_TRANSITIONS`: the adjacency table. -/
def OPTIMIZATION_TRANSITIONS : OptimizationStatus → List OptimizationStatus
  | .generated => [.accepted, .rejected]
  | .accepted => []
  | .rejected => []

/-- Embedding of `CYCLE_TRANSITIONS`: the adjacency table. -/
def CYCLE_TRANSITIONS : CycleStatus → List CycleStatus
  | .running => [.paused, .cancelled, .completed]
  | .paused => [.running, .cancelled]
  | .completed => []
  | .cancelled => []

def optimizationStatusText : OptimizationStatus → String
  | .generated => "generated"
  | .accepted => "accepted"
  | .rejected => "rejected"

def cycleStatusText : CycleStatus → String
  | .running => "running"
  | .paused => "paused"
  | .completed => "completed"
  | .cancelled => "cancelled"

/-- Embedding of `transitionOptimizationStatus`: the thrown `Error` is
modelled as `Except.error` carrying the message text. -/
def transitionOptimizationStatus (current next : OptimizationStatus) :
    Except String OptimizationStatus :=
  let allowed := OPTIMIZATION_TRANSITIONS current
  if next ∈ allowed then .ok next
  else .error ("Invalid optimization status transition: " ++
    optimizationStatusText current ++ " -> " ++ optimizationStatusText next)

/-- Embedding of `transitionCycleStatus`. -/
def transitionCycleStatus (current next : CycleStatus) :
    Except String CycleStatus :=
  let allowed := CYCLE_TRANSITIONS current
  if next ∈ allowed then .ok next
  else .error ("Invalid cycle status transition: " ++
    cycleStatusText current ++ " -> " ++ cycleStatusText next)

/-! ### Pass-rate calculator (src/backend/src/utils/pass-rate.ts) -/

inductive ResultStatus
  | completed
  | error
deriving DecidableEq

/-- Embedding of the `CriterionResult` interface.  The `explanation`
field is `Option String`: the evaluator's code defensively guards
against a missing (`undefined`) explanation coming back from the
client's JSON parse, so the runtime value space includes absence. -/
structure CriterionResult where
  criterionId : String
  passed : Bool
  explanation : Option String
deriving DecidableEq

/-- Embedding of the `TestCaseResult` interface (the fields the
pass-rate calculator and the orchestrator inspect). -/
structure TestCaseResult where
  testCaseId : String
  criterionResults : List CriterionResult
  status : ResultStatus
  errorMessage : Option String
deriving DecidableEq

/-- Embedding of `calculatePassRate`.  JavaScript number division is
modelled exactly by rationals (numerator and denominator are small
naturals, so no floating-point subtleties are involved in the claims). -/
def calculatePassRate (testCaseResults : List TestCaseResult) : ℚ :=
  let completedResults := testCaseResults.filter
    (fun r => decide (r.status = ResultStatus.completed))
  let allCriteria := completedResults.flatMap (fun r => r.criterionResults)
  if allCriteria.length = 0 then 0
  else ((allCriteria.filter (fun c => c.passed)).length : ℚ) / (allCriteria.length : ℚ)

/-! ### Result evaluator (src/backend/src/services/result-evaluator.ts)

The asynchronous generative-model client is modelled as an oracle
function from the rendered response text and the criterion to the
`CriterionResult` it returns. -/

structure AgentResponse where
  turn : Nat
  utterance : String
deriving DecidableEq

inductive CriterionCategory
  | behavioral
  | functional
  | compliance
deriving DecidableEq

structure SuccessCriterion where
  id : String
  description : String
  category : CriterionCategory
  evaluationPrompt : String

/-- The response text rendered by `evaluateCriterion` before calling the
client: one line per turn, joined with newlines. -/
def responseTextOf (agentResponses : List AgentResponse) : String :=
  String.intercalate "\n"
    (agentResponses.map (fun r => "Turn " ++ toString r.turn ++ ": " ++ r.utterance))

/-- The explanation synthesized for a failed criterion whose client
explanation was missing or blank (the template literal in the source). -/
def synthesizedExplanation (criterion : SuccessCriterion) : String :=
  "Criterion \"" ++ criterion.description ++ "\" was not met by the agent response."

/-- The guard `!result.explanation || result.explanation.trim() === ''`:
true when the explanation is absent or trims to the empty string.  A
string trims to the empty string exactly when every character is
whitespace, which is how the check is embedded here. -/
def explanationBlank : Option String → Bool
  | none => true
  | some s => s.data.all Char.isWhitespace

/-- Embedding of `ResultEvaluatorService.evaluateCriterion`. -/
def evaluateCriterion (llm : String → SuccessCriterion → CriterionResult)
    (agentResponses : List AgentResponse) (criterion : SuccessCriterion) :
    CriterionResult :=
  let responseText := responseTextOf agentResponses
  let result := llm responseText criterion
  if !result.passed && explanationBlank result.explanation then
    { result with explanation := some (synthesizedExplanation criterion) }
  else result

/-- Embedding of `ResultEvaluatorService.evaluateAllCriteria`: one
result per criterion, in input order (the source's sequential loop). -/
def evaluateAllCriteria (llm : String → SuccessCriterion → CriterionResult)
    (agentResponses : List AgentResponse) (criteria : List SuccessCriterion) :
    List CriterionResult :=
  criteria.map (evaluateCriterion llm agentResponses)

/-! ### Prompt optimizer (services/prompt-optimizer.ts) -/

structure PromptChange where
  description : String
  rationale : String
deriving DecidableEq

/-- The `OptimizationResult` returned by the client's `optimizePrompt`. -/
structure OptimizationResult where
  originalPrompt : String
  revisedPrompt : String
  changes : List PromptChange
  targetedFailures : List String
deriving DecidableEq

/-- The `StoredOptimizationRecord` built (and inserted) by the
optimizer; `status` is initialized to `generated`. -/
structure StoredOptimizationRecord where
  id : String
  testRunId : String
  agentId : String
  originalPrompt : String
  revisedPrompt : String
  changes : List PromptChange
  targetedFailures : List String
  status : OptimizationStatus
  createdAt : String
deriving DecidableEq

/-- Embedding of `PromptOptimizerService.optimizePrompt`.  The client is
an oracle parameter; the generated uuid and timestamp are inputs; the
database insert is modelled by the returned record (the inserted row
carries the same fields).  The return type is `Except` so that the
claimed surfacing of a client-contract violation as an error is
statable; the source never takes the error branch. -/
def optimizePrompt
    (llm : String → List CriterionResult → List CriterionResult → OptimizationResult)
    (freshId createdAt testRunId agentId originalPrompt : String)
    (failures passes : List CriterionResult) :
    Except String StoredOptimizationRecord :=
  let result := llm originalPrompt failures passes
  .ok {
    id := freshId
    testRunId := testRunId
    agentId := agentId
    originalPrompt := originalPrompt
    revisedPrompt := result.revisedPrompt
    changes := result.changes
    targetedFailures := result.targetedFailures
    status := .generated
    createdAt := createdAt
  }

/-! ### Retry helper (services/llm-service.ts, `retryWithBackoff`)

The effectful `fn` is modelled as an oracle giving each attempt's
outcome; the trace records the result, how many times `fn` was invoked,
and the sleep durations in order. -/

structure RetryTrace (E A : Type) where
  result : Except E A
  attempts : Nat
  delays : List Nat

/-- The loop body of `retryWithBackoff` from a given attempt index:
try `fn attempt`; on success return; on failure, if this is not the
last attempt, sleep `initialDelayMs * 2 ^ attempt` and continue;
after the last attempt re-raise the last error. -/
def retryGo {E A : Type} (fn : Nat → Except E A) (maxRetries initialDelayMs : Nat) :
    (attempt : Nat) → RetryTrace E A
  | attempt =>
    match fn attempt with
    | .ok v => ⟨.ok v, 1, []⟩
    | .error e =>
      if h : attempt < maxRetries then
        let rest := retryGo fn maxRetries initialDelayMs (attempt + 1)
        ⟨rest.result, rest.attempts + 1, initialDelayMs * 2 ^ attempt :: rest.delays⟩
      else ⟨.error e, 1, []⟩
termination_by attempt => maxRetries - attempt

/-- Embedding of `retryWithBackoff` (the loop starts at attempt 0). -/
def retryWithBackoff {E A : Type} (fn : Nat → Except E A)
    (maxRetries initialDelayMs : Nat) : RetryTrace E A :=
  retryGo fn maxRetries initialDelayMs 0

/-! ### Cycle orchestrator loop (services/cycle-orchestrator.ts)

`runCycleLoop` is modelled over three oracles describing the
environment of a particular execution:

* `flag k` — the value of the cooperative `stateFlags` entry as read by
  the k-th loop-top check (`k` equals `cycleCount` at that check, since
  each iteration increments `cycleCount` exactly once).  External
  `cancelCycle` / `pauseCycle` requests arriving at any real-time point
  are captured by which checks observe the changed flag.
* `passRate k` — the `overallPassRate` persisted by iteration k's test
  run (iterations are numbered from 1, `k` = `cycleCount` after the
  increment).
* `failuresNonempty k` — whether iteration k's run produced at least
  one failed criterion result.

The final `LoopResult` records the fields of the last
`updateCycleRecord` write together with how many test-run iterations
were executed (each persists one `TestRun`) and how many times the
optimizer was invoked. -/

structure LoopResult where
  status : CycleStatus
  cycleCount : Nat
  startingPassRate : ℚ
  endingPassRate : ℚ
  testRuns : Nat
  optCalls : Nat
deriving DecidableEq

/-- One pass of the `while (cycleCount < maxCycles)` loop body, from a
given `cycleCount`; `testRuns` and `optCalls` accumulate the work done
by earlier iterations. -/
def cycleLoopGo (targetThreshold : ℚ) (maxCycles : Nat)
    (passRate : Nat → ℚ) (failuresNonempty : Nat → Bool)
    (flag : Nat → CycleStatus) :
    (cycleCount : Nat) → (testRuns optCalls : Nat) → (currentPassRate : ℚ) →
    LoopResult
  | cycleCount, testRuns, optCalls, currentPassRate =>
    if h : cycleCount < maxCycles then
      -- Check for pause/cancel
      if flag cycleCount = .cancelled then
        ⟨.cancelled, cycleCount, 0, currentPassRate, testRuns, optCalls⟩
      else if flag cycleCount = .paused then
        ⟨.paused, cycleCount, 0, currentPassRate, testRuns, optCalls⟩
      -- Increment cycleCount, execute the test run (one more TestRun is
      -- persisted), then check if the threshold is met
      else if targetThreshold ≤ passRate (cycleCount + 1) then
        ⟨.completed, cycleCount + 1, 0, passRate (cycleCount + 1),
          testRuns + 1, optCalls⟩
      else
        -- Optimize the prompt if not last cycle and failures exist,
        -- then loop
        cycleLoopGo targetThreshold maxCycles passRate failuresNonempty flag
          (cycleCount + 1) (testRuns + 1)
          (if cycleCount + 1 < maxCycles ∧ failuresNonempty (cycleCount + 1) then
            optCalls + 1
          else optCalls)
          (passRate (cycleCount + 1))
    else
      -- Max cycles reached
      ⟨.completed, cycleCount, 0, currentPassRate, testRuns, optCalls⟩
termination_by cycleCount => maxCycles - cycleCount

/-- Embedding of `runCycleLoop`: starts at `cycleCount = 0` with a
starting pass rate of 0 (the source captures `startingPassRate` from
the initial `currentPassRate = 0` and never overwrites it). -/
def runCycleLoop (targetThreshold : ℚ) (maxCycles : Nat)
    (passRate : Nat → ℚ) (failuresNonempty : Nat → Bool)
    (flag : Nat → CycleStatus) : LoopResult :=
  cycleLoopGo targetThreshold maxCycles passRate failuresNonempty flag 0 0 0 0

/-! ### Diff engine (src/backend/src/utils/diff-engine.ts)

JavaScript strings are modelled as lists of characters (`JStr`) so that
`split('\n')` and its inverse are definable and provable; all string
comparisons in the source are exact equality, which carries over. -/

abbrev JStr := List Char

/-- `s.split('\n')` of JavaScript: splitting the empty string gives
`[""]`, and every separator occurrence starts a new chunk. -/
def splitLines : JStr → List JStr
  | [] => [[]]
  | c :: rest =>
    if c = '\n' then [] :: splitLines rest
    else
      match splitLines rest with
      | [] => [[c]]
      | line :: lines => (c :: line) :: lines

/-- `lines.join('\n')`: the inverse of `splitLines`. -/
def joinLines : List JStr → JStr
  | [] => []
  | [line] => line
  | line :: lines => line ++ '\n' :: joinLines lines

inductive DiffType
  | added
  | removed
  | context
deriving DecidableEq

/-- Embedding of the `DiffChange` interface. -/
structure DiffChange where
  type : DiffType
  lineNumber : Nat
  content : JStr
deriving DecidableEq

/-- Row `i + 1` of the `dp` table of `buildLCS`, given row `i` as
`prevRow`: `dp[i+1][0] = 0` and
`dp[i+1][j+1] = a[i] === b[j] ? dp[i][j] + 1 : max(dp[i][j+1], dp[i+1][j])`,
the classic LCS recurrence of the source. -/
def lcsDpRow (a b : List JStr) (i : Nat) (prevRow : Nat → Nat) : Nat → Nat
  | 0 => 0
  | j + 1 =>
    if a.getD i [] = b.getD j [] then prevRow j + 1
    else max (prevRow (j + 1)) (lcsDpRow a b i prevRow j)

/-- Embedding of the `dp` table of `buildLCS`:
`lcsDp a b i j` is `dp[i][j]`, the table value for the prefixes of
length `i` and `j` (row 0 and column 0 are zero). -/
def lcsDp (a b : List JStr) : Nat → Nat → Nat
  | 0 => fun _ => 0
  | i + 1 => lcsDpRow a b i (lcsDp a b i)

/-- The backtracking `while (i > 0 && j > 0)` loop of `buildLCS` at
row `i + 1`, given the backtracking results for row `i` as `prev`:
elements found later in the walk are `unshift`ed, i.e. the
recursive (smaller-index) part comes first. -/
def lcsBackGo (a b : List JStr) (i : Nat) (prev : Nat → List JStr) : Nat → List JStr
  | 0 => []
  | j + 1 =>
    if a.getD i [] = b.getD j [] then
      prev j ++ [a.getD i []]
    else if lcsDp a b i (j + 1) > lcsDp a b (i + 1) j then
      prev (j + 1)
    else
      lcsBackGo a b i prev j

/-- Embedding of the backtracking loop of `buildLCS` from table indices
`(i, j)`: `lcsBack a b i j` is the common subsequence the source's
`while (i > 0 && j > 0)` walk collects starting at those indices. -/
def lcsBack (a b : List JStr) : Nat → Nat → List JStr
  | 0 => fun _ => []
  | i + 1 => lcsBackGo a b i (lcsBack a b i)

/-- Embedding of `buildLCS`. -/
def buildLCS (a b : List JStr) : List JStr := lcsBack a b a.length b.length

/-- Embedding of the emission loop of `computeDiff`
(`while (oi < originalLines.length || ri < revisedLines.length)`),
with an explicit fuel parameter: the source's `while` loop has no
syntactic bound, so one step of the loop consumes one unit of fuel and
exhausted fuel returns `none` (in particular, a state in which no
branch fires — where the source would spin forever — consumes fuel
without progress and eventually returns `none`).  The totality theorem
below shows the initial fuel of `computeDiff` is always sufficient. -/
def diffWalk (o r lcs : List JStr) : (fuel oi ri li : Nat) → Option (List DiffChange)
  | 0, oi, ri, _li =>
    if oi < o.length ∨ ri < r.length then none else some []
  | fuel + 1, oi, ri, li =>
    if oi < o.length ∨ ri < r.length then
      if li < lcs.length ∧ oi < o.length ∧ ri < r.length ∧
          o.getD oi [] = lcs.getD li [] ∧ r.getD ri [] = lcs.getD li [] then
        (diffWalk o r lcs fuel (oi + 1) (ri + 1) (li + 1)).map
          (fun rest => ⟨.context, ri + 1, lcs.getD li []⟩ :: rest)
      else if oi < o.length ∧ (lcs.length ≤ li ∨ o.getD oi [] ≠ lcs.getD li []) then
        (diffWalk o r lcs fuel (oi + 1) ri li).map
          (fun rest => ⟨.removed, oi + 1, o.getD oi []⟩ :: rest)
      else if ri < r.length ∧ (lcs.length ≤ li ∨ r.getD ri [] ≠ lcs.getD li []) then
        (diffWalk o r lcs fuel oi (ri + 1) li).map
          (fun rest => ⟨.added, ri + 1, r.getD ri []⟩ :: rest)
      else
        diffWalk o r lcs fuel oi ri li
    else some []

/-- Embedding of `computeDiff`: identical inputs short-circuit to the
empty list; otherwise the inputs are split into lines, an LCS backbone
is built, and the emission loop walks both line sequences.  The fuel
`m + n` bounds the loop's iterations (each iteration consumes at least
one line of one input, as proved below). -/
def computeDiff (original revised : JStr) : Option (List DiffChange) :=
  if original = revised then some []
  else
    let originalLines := splitLines original
    let revisedLines := splitLines revised
    let lcs := buildLCS originalLines revisedLines
    diffWalk originalLines revisedLines lcs
      (originalLines.length + revisedLines.length) 0 0 0

/-! ## Theorems -/

deriving instance DecidableEq for Except

/-! ### C7: the transition tables are exact -/

/-- C7: for every (current, requested) pair, the transition functions
succeed and return the requested status exactly when the pair is an
edge of the fixed tables (optimization: generated→accepted,
generated→rejected; cycle: running→paused, running→cancelled,
running→completed, paused→running, paused→cancelled), and reject with
an invalid-transition error for every other pair, including every
transition out of accepted, rejected, completed and cancelled. -/
theorem transition_tables_exact :
    (∀ c n : OptimizationStatus,
      (transitionOptimizationStatus c n = .ok n ↔
        (c, n) ∈ [(OptimizationStatus.generated, OptimizationStatus.accepted),
                  (OptimizationStatus.generated, OptimizationStatus.rejected)]) ∧
      ((c, n) ∉ [(OptimizationStatus.generated, OptimizationStatus.accepted),
                 (OptimizationStatus.generated, OptimizationStatus.rejected)] →
        ∀ s, transitionOptimizationStatus c n ≠ .ok s)) ∧
    (∀ c n : CycleStatus,
      (transitionCycleStatus c n = .ok n ↔
        (c, n) ∈ [(CycleStatus.running, CycleStatus.paused),
                  (CycleStatus.running, CycleStatus.cancelled),
                  (CycleStatus.running, CycleStatus.completed),
                  (CycleStatus.paused, CycleStatus.running),
                  (CycleStatus.paused, CycleStatus.cancelled)]) ∧
      ((c, n) ∉ [(CycleStatus.running, CycleStatus.paused),
                 (CycleStatus.running, CycleStatus.cancelled),
                 (CycleStatus.running, CycleStatus.completed),
                 (CycleStatus.paused, CycleStatus.running),
                 (CycleStatus.paused, CycleStatus.cancelled)] →
        ∀ s, transitionCycleStatus c n ≠ .ok s)) := by
  decide

/-! ### C5: the pass-rate calculator -/

/-- C5: the pass-rate calculator returns (criterion results passed)
divided by (criterion results total) over completed cases only, returns
exactly 0 when the total is zero (in particular when every case has
status error), and always yields a rational in [0, 1]. -/
theorem calculatePassRate_correct (testCaseResults : List TestCaseResult) :
    (calculatePassRate testCaseResults =
      (let completedCriteria := (testCaseResults.filter
          (fun r => decide (r.status = ResultStatus.completed))).flatMap
          (fun r => r.criterionResults)
       if completedCriteria.length = 0 then 0
       else (completedCriteria.countP (fun c => c.passed) : ℚ) /
         (completedCriteria.length : ℚ))) ∧
    0 ≤ calculatePassRate testCaseResults ∧
    calculatePassRate testCaseResults ≤ 1 ∧
    ((∀ r ∈ testCaseResults, r.status = ResultStatus.error) →
      calculatePassRate testCaseResults = 0) := by
  refine ⟨?_, ?_, ?_, ?_⟩
  · simp only [calculatePassRate, List.countP_eq_length_filter]
  · simp only [calculatePassRate]
    split
    · exact le_refl 0
    · positivity
  · simp only [calculatePassRate]
    split
    · exact zero_le_one
    · apply div_le_one_of_le₀
      · exact Nat.cast_le.mpr (List.length_filter_le _ _)
      · positivity
  · intro hall
    unfold calculatePassRate
    have hfil : testCaseResults.filter
        (fun r => decide (r.status = ResultStatus.completed)) = [] := by
      rw [List.filter_eq_nil_iff]
      intro r hr
      simp [hall r hr]
    simp [hfil]

/-- A list of test-case results in which every case errored, used to
instantiate `calculatePassRate_correct`. -/
def errorOnlyResults : List TestCaseResult :=
  [⟨"tc-1", [], .error, some "agent timeout"⟩,
   ⟨"tc-2", [⟨"sc-9", true, some "ok"⟩], .error, some "agent crash"⟩]

/-- Witness for C5: on a concrete all-error list the pass rate is 0. -/
theorem calculatePassRate_correct_witness :
    calculatePassRate errorOnlyResults = 0 :=
  (calculatePassRate_correct errorOnlyResults).2.2.2 (by decide)

/-! ### C6: failed criteria always carry a non-empty explanation -/

lemma synthesizedExplanation_ne_empty (criterion : SuccessCriterion) :
    synthesizedExplanation criterion ≠ "" := by
  intro h
  have hl := congrArg String.length h
  rw [synthesizedExplanation, String.length_append, String.length_append] at hl
  have h1 : String.length "Criterion \"" = 11 := rfl
  have h2 : String.length "\" was not met by the agent response." = 36 := rfl
  have h0 : String.length "" = 0 := rfl
  omega

/-- C6: every result the evaluator returns with passed = false carries
a non-empty explanation, and whenever the client's explanation was
missing or blank it is exactly the synthesized explanation, which
embeds the criterion's description. -/
theorem evaluator_failed_explanation
    (llm : String → SuccessCriterion → CriterionResult)
    (agentResponses : List AgentResponse) (criterion : SuccessCriterion)
    (hfail : (evaluateCriterion llm agentResponses criterion).passed = false) :
    (∃ s, (evaluateCriterion llm agentResponses criterion).explanation = some s ∧ s ≠ "") ∧
    (explanationBlank (llm (responseTextOf agentResponses) criterion).explanation = true →
      (evaluateCriterion llm agentResponses criterion).explanation =
        some (synthesizedExplanation criterion)) := by
  have hdef : evaluateCriterion llm agentResponses criterion =
      (if !(llm (responseTextOf agentResponses) criterion).passed &&
          explanationBlank (llm (responseTextOf agentResponses) criterion).explanation then
        { llm (responseTextOf agentResponses) criterion with
          explanation := some (synthesizedExplanation criterion) }
      else llm (responseTextOf agentResponses) criterion) := rfl
  set raw := llm (responseTextOf agentResponses) criterion with hraw
  have hpassed : raw.passed = false := by
    cases hp : raw.passed
    · rfl
    · rw [hdef] at hfail
      simp [hp] at hfail
  rw [hdef, hpassed]
  cases hb : explanationBlank raw.explanation
  · simp only [Bool.not_false, Bool.true_and, Bool.false_eq_true, if_false]
    refine ⟨?_, fun htrue => htrue.elim⟩
    cases hexp : raw.explanation with
    | none => rw [hexp, explanationBlank] at hb; exact absurd hb (by simp)
    | some s =>
      refine ⟨s, rfl, ?_⟩
      intro hs
      rw [hexp, hs, explanationBlank] at hb
      simp at hb
  · simp only [Bool.not_false, Bool.true_and, if_true]
    exact ⟨⟨synthesizedExplanation criterion, rfl, synthesizedExplanation_ne_empty criterion⟩,
      by simp⟩

/-- A client that fails the criterion with a whitespace-only
explanation, used to instantiate `evaluator_failed_explanation`. -/
def blankExplanationClient : String → SuccessCriterion → CriterionResult :=
  fun _ criterion => ⟨criterion.id, false, some "   "⟩

def greetCriterion : SuccessCriterion :=
  ⟨"sc-1", "agent greets the caller", .behavioral, "Did the agent greet the caller?"⟩

/-- Witness for C6 at a concrete client returning a blank explanation. -/
theorem evaluator_failed_explanation_witness :
    (∃ s, (evaluateCriterion blankExplanationClient [] greetCriterion).explanation =
        some s ∧ s ≠ "") ∧
    (explanationBlank (blankExplanationClient (responseTextOf []) greetCriterion).explanation
        = true →
      (evaluateCriterion blankExplanationClient [] greetCriterion).explanation =
        some (synthesizedExplanation greetCriterion)) :=
  evaluator_failed_explanation blankExplanationClient [] greetCriterion (by decide)

/-! ### C4: the optimizer does not reject an identical revised prompt -/

/-- A client that echoes the original prompt back as the revision — the
client-contract violation the spec describes. -/
def identityEchoClient :
    String → List CriterionResult → List CriterionResult → OptimizationResult :=
  fun originalPrompt _ _ => ⟨originalPrompt, originalPrompt, [], []⟩

def cexFailure : CriterionResult := ⟨"sc-7", false, some "missed the greeting"⟩

/-- C4 counterexample: with a non-empty failures list and a client
returning a revised prompt identical to the original, the optimizer
returns (and persists) the record with revisedPrompt = originalPrompt
instead of surfacing an error. -/
theorem optimizer_accepts_identical_revision :
    optimizePrompt identityEchoClient "opt-1" "t0" "run-1" "agent-1" "PROMPT"
        [cexFailure] [] =
      .ok ⟨"opt-1", "run-1", "agent-1", "PROMPT", "PROMPT", [], [],
        .generated, "t0"⟩ ∧
    [cexFailure] ≠ ([] : List CriterionResult) := by
  exact ⟨rfl, by simp⟩

/-- C4 amended: the optimizer performs no identical-prompt check at
all — for every client and every input (whether or not failures is
empty, and whether or not the revised prompt differs) it returns `.ok`
with exactly the client's revision and status `generated`, never an
error. -/
theorem optimizer_no_identity_check
    (llm : String → List CriterionResult → List CriterionResult → OptimizationResult)
    (freshId createdAt testRunId agentId originalPrompt : String)
    (failures passes : List CriterionResult) :
    optimizePrompt llm freshId createdAt testRunId agentId originalPrompt
        failures passes =
      .ok { id := freshId, testRunId := testRunId, agentId := agentId,
            originalPrompt := originalPrompt,
            revisedPrompt := (llm originalPrompt failures passes).revisedPrompt,
            changes := (llm originalPrompt failures passes).changes,
            targetedFailures := (llm originalPrompt failures passes).targetedFailures,
            status := .generated, createdAt := createdAt } := rfl

/-! ### C9: retry with exponential backoff -/

lemma retryGo_attempts_pos {E A : Type} (fn : Nat → Except E A)
    (R D attempt : Nat) : 1 ≤ (retryGo fn R D attempt).attempts := by
  rw [retryGo]
  cases hfn : fn attempt with
  | ok v => simp
  | error e =>
    by_cases h : attempt < R
    · simp [h]
    · simp [h]

lemma retryGo_spec {E A : Type} (fn : Nat → Except E A) (R D : Nat) :
    ∀ k attempt, R - attempt = k → attempt ≤ R →
      (retryGo fn R D attempt).attempts ≤ R + 1 - attempt ∧
      (retryGo fn R D attempt).delays =
        (List.range' attempt ((retryGo fn R D attempt).attempts - 1)).map
          (fun a => D * 2 ^ a) ∧
      (∀ a v, attempt ≤ a → a ≤ R → fn a = .ok v →
        (∀ b, attempt ≤ b → b < a → ∃ e, fn b = .error e) →
        (retryGo fn R D attempt).result = .ok v ∧
          (retryGo fn R D attempt).attempts = a + 1 - attempt) ∧
      ((∀ a, attempt ≤ a → a ≤ R → ∃ e, fn a = .error e) →
        ∀ e, fn R = .error e →
        (retryGo fn R D attempt).result = .error e ∧
          (retryGo fn R D attempt).attempts = R + 1 - attempt) := by
  intro k
  induction k with
  | zero =>
    intro attempt hk hle
    have heq : attempt = R := by omega
    subst heq
    rw [retryGo]
    cases hfn : fn attempt with
    | ok v =>
      simp only [hfn]
      refine ⟨by omega, by simp, ?_, ?_⟩
      · intro a v' ha1 ha2 hok _hprev
        have : a = attempt := by omega
        subst this
        rw [hfn] at hok
        exact ⟨by rw [Except.ok.injEq] at hok; rw [hok], by omega⟩
      · intro hall e hR
        exact absurd hR (by simp)
    | error e =>
      have hnlt : ¬ attempt < attempt := by omega
      simp only [hfn, dif_neg hnlt]
      refine ⟨by omega, by simp, ?_, ?_⟩
      · intro a v' ha1 ha2 hok _hprev
        have : a = attempt := by omega
        subst this
        rw [hfn] at hok
        exact absurd hok (by simp)
      · intro hall e' hR
        rw [Except.error.injEq] at hR
        exact ⟨by rw [hR], by omega⟩
  | succ k ih =>
    intro attempt hk hle
    have hlt : attempt < R := by omega
    obtain ⟨ihA, ihD, ihS, ihF⟩ :=
      ih (attempt + 1) (by omega) (by omega)
    rw [retryGo]
    cases hfn : fn attempt with
    | ok v =>
      simp only [hfn]
      refine ⟨by omega, by simp, ?_, ?_⟩
      · intro a v' ha1 ha2 hok hprev
        rcases Nat.eq_or_lt_of_le ha1 with heq | hgt
        · subst heq
          rw [hfn] at hok
          rw [Except.ok.injEq] at hok
          exact ⟨by rw [hok], by omega⟩
        · obtain ⟨e, he⟩ := hprev attempt (le_refl _) hgt
          rw [hfn] at he
          exact absurd he (by simp)
      · intro hall e hR
        obtain ⟨e0, he0⟩ := hall attempt (le_refl _) (by omega)
        rw [hfn] at he0
        exact absurd he0 (by simp)
    | error e =>
      simp only [hfn, dif_pos hlt]
      have hpos := retryGo_attempts_pos fn R D (attempt + 1)
      refine ⟨by omega, ?_, ?_, ?_⟩
      · have hsplit : (retryGo fn R D (attempt + 1)).attempts + 1 - 1 =
            ((retryGo fn R D (attempt + 1)).attempts - 1) + 1 := by omega
        rw [hsplit, List.range'_succ, List.map_cons, ← ihD]
      · intro a v' ha1 ha2 hok hprev
        rcases Nat.eq_or_lt_of_le ha1 with heq | hgt
        · subst heq
          rw [hfn] at hok
          exact absurd hok (by simp)
        · obtain ⟨hres, hatt⟩ := ihS a v' hgt ha2 hok
            (fun b hb1 hb2 => hprev b (by omega) hb2)
          exact ⟨hres, by omega⟩
      · intro hall e' hR
        obtain ⟨hres, hatt⟩ :=
          ihF (fun a ha1 ha2 => hall a (by omega) ha2) e' hR
        exact ⟨hres, by omega⟩

/-- C9: the retry helper attempts the operation at most R+1 times;
the delays slept are exactly initialDelay × 2^a for the failed attempts
a = 0, 1, … in order; the first successful attempt's value is returned
with no further attempts; and when every attempt fails the raised error
is the last attempt's error. -/
theorem retryWithBackoff_correct {E A : Type} (fn : Nat → Except E A) (R D : Nat) :
    (retryWithBackoff fn R D).attempts ≤ R + 1 ∧
    (retryWithBackoff fn R D).delays =
      (List.range ((retryWithBackoff fn R D).attempts - 1)).map (fun a => D * 2 ^ a) ∧
    (∀ a v, a ≤ R → fn a = .ok v → (∀ b, b < a → ∃ e, fn b = .error e) →
      (retryWithBackoff fn R D).result = .ok v ∧
        (retryWithBackoff fn R D).attempts = a + 1) ∧
    ((∀ a, a ≤ R → ∃ e, fn a = .error e) → ∀ e, fn R = .error e →
      (retryWithBackoff fn R D).result = .error e ∧
        (retryWithBackoff fn R D).attempts = R + 1) := by
  obtain ⟨hA, hD, hS, hF⟩ := retryGo_spec fn R D R 0 (by omega) (by omega)
  refine ⟨by simpa using hA, ?_, ?_, ?_⟩
  · rw [retryWithBackoff, hD, List.range_eq_range']
  · intro a v ha hok hprev
    obtain ⟨hres, hatt⟩ := hS a v (by omega) ha hok
      (fun b _ hb2 => hprev b hb2)
    exact ⟨hres, by rw [retryWithBackoff, hatt]; omega⟩
  · intro hall e hR
    obtain ⟨hres, hatt⟩ := hF (fun a _ ha2 => hall a ha2) e hR
    exact ⟨hres, by rw [retryWithBackoff, hatt]; omega⟩

/-- An operation that fails on attempt 0 and succeeds on attempt 1,
used to instantiate `retryWithBackoff_correct`. -/
def flakyOperation : Nat → Except String Nat :=
  fun a => if a = 1 then .ok 7 else .error "transport failure"

/-- Witness for C9: with three retries allowed, the flaky operation
succeeds on its second attempt, so exactly 2 attempts are made. -/
theorem retryWithBackoff_correct_witness :
    (retryWithBackoff flakyOperation 3 100).result = .ok 7 ∧
    (retryWithBackoff flakyOperation 3 100).attempts = 2 :=
  (retryWithBackoff_correct flakyOperation 3 100).2.2.1 1 7 (by omega) rfl
    (fun b hb => by
      interval_cases b
      exact ⟨"transport failure", rfl⟩)

/-! ### C1, C2, C3: the orchestrator loop -/

lemma cycleLoopGo_testRuns_le (T : ℚ) (M : Nat) (pr : Nat → ℚ)
    (fn : Nat → Bool) (fl : Nat → CycleStatus) :
    ∀ d c tr oc cur, M - c = d →
      (cycleLoopGo T M pr fn fl c tr oc cur).testRuns ≤ tr + (M - c) := by
  intro d
  induction d with
  | zero =>
    intro c tr oc cur hd
    have hc : ¬ c < M := by omega
    rw [cycleLoopGo, dif_neg hc]
    exact Nat.le_add_right _ _
  | succ d ih =>
    intro c tr oc cur hd
    have hc : c < M := by omega
    rw [cycleLoopGo, dif_pos hc]
    by_cases h1 : fl c = .cancelled
    · rw [if_pos h1]
      exact Nat.le_add_right _ _
    · rw [if_neg h1]
      by_cases h2 : fl c = .paused
      · rw [if_pos h2]
        exact Nat.le_add_right _ _
      · rw [if_neg h2]
        by_cases h3 : T ≤ pr (c + 1)
        · rw [if_pos h3]
          show tr + 1 ≤ tr + (M - c)
          omega
        · rw [if_neg h3]
          exact le_trans (ih (c + 1) (tr + 1) _ _ (by omega)) (by omega)

lemma cycleLoopGo_status_terminal (T : ℚ) (M : Nat) (pr : Nat → ℚ)
    (fn : Nat → Bool) (fl : Nat → CycleStatus) :
    ∀ d c tr oc cur, M - c = d →
      (cycleLoopGo T M pr fn fl c tr oc cur).status ≠ .running := by
  intro d
  induction d with
  | zero =>
    intro c tr oc cur hd
    have hc : ¬ c < M := by omega
    rw [cycleLoopGo, dif_neg hc]
    show CycleStatus.completed ≠ .running
    simp
  | succ d ih =>
    intro c tr oc cur hd
    have hc : c < M := by omega
    rw [cycleLoopGo, dif_pos hc]
    by_cases h1 : fl c = .cancelled
    · rw [if_pos h1]
      show CycleStatus.cancelled ≠ .running
      simp
    · rw [if_neg h1]
      by_cases h2 : fl c = .paused
      · rw [if_pos h2]
        show CycleStatus.paused ≠ .running
        simp
      · rw [if_neg h2]
        by_cases h3 : T ≤ pr (c + 1)
        · rw [if_pos h3]
          show CycleStatus.completed ≠ .running
          simp
        · rw [if_neg h3]
          exact ih (c + 1) (tr + 1) _ _ (by omega)

lemma cycleLoopGo_cap (T : ℚ) (M : Nat) (pr : Nat → ℚ)
    (fn : Nat → Bool) (fl : Nat → CycleStatus)
    (hflag : ∀ j, fl j = .running) (hrate : ∀ j, pr j < T) :
    ∀ d c tr oc cur, M - c = d → c ≤ M →
      (cycleLoopGo T M pr fn fl c tr oc cur).status = .completed ∧
      (cycleLoopGo T M pr fn fl c tr oc cur).cycleCount = M ∧
      (cycleLoopGo T M pr fn fl c tr oc cur).testRuns = tr + (M - c) ∧
      (cycleLoopGo T M pr fn fl c tr oc cur).optCalls =
        oc + (List.range' (c + 1) (M - 1 - c)).countP fn := by
  intro d
  induction d with
  | zero =>
    intro c tr oc cur hd hle
    have hc : ¬ c < M := by omega
    have hcM : c = M := by omega
    rw [cycleLoopGo, dif_neg hc]
    refine ⟨rfl, hcM, by show tr = tr + (M - c); omega, ?_⟩
    show oc = oc + (List.range' (c + 1) (M - 1 - c)).countP fn
    have : M - 1 - c = 0 := by omega
    rw [this]
    simp [List.range']
  | succ d ih =>
    intro c tr oc cur hd hle
    have hc : c < M := by omega
    rw [cycleLoopGo, dif_pos hc]
    rw [if_neg (by rw [hflag c]; simp), if_neg (by rw [hflag c]; simp),
      if_neg (not_le.mpr (hrate (c + 1)))]
    obtain ⟨ihS, ihC, ihT, ihO⟩ := ih (c + 1) (tr + 1)
      (if c + 1 < M ∧ fn (c + 1) = true then oc + 1 else oc)
      (pr (c + 1)) (by omega) (by omega)
    refine ⟨ihS, ihC, by rw [ihT]; omega, ?_⟩
    rw [ihO]
    by_cases hc1 : c + 1 < M
    · have hlen : M - 1 - c = (M - 1 - (c + 1)) + 1 := by omega
      rw [hlen, List.range'_succ, List.countP_cons]
      by_cases hb : fn (c + 1) = true
      · rw [if_pos ⟨hc1, hb⟩, hb]
        simp
        omega
      · rw [if_neg (fun hand => hb hand.2)]
        simp only [hb]
        simp
    · have hlen1 : M - 1 - c = 0 := by omega
      have hlen2 : M - 1 - (c + 1) = 0 := by omega
      rw [if_neg (fun hand => hc1 hand.1), hlen1, hlen2]
      simp [List.range']

lemma cycleLoopGo_threshold_exit (T : ℚ) (M : Nat) (pr : Nat → ℚ)
    (fn : Nat → Bool) (fl : Nat → CycleStatus) (c tr oc : Nat) (cur : ℚ)
    (hc : c < M) (hfl : fl c = .running) (hhit : T ≤ pr (c + 1)) :
    cycleLoopGo T M pr fn fl c tr oc cur =
      ⟨.completed, c + 1, 0, pr (c + 1), tr + 1, oc⟩ := by
  rw [cycleLoopGo, dif_pos hc, if_neg (by rw [hfl]; simp),
    if_neg (by rw [hfl]; simp), if_pos hhit]

lemma cycleLoopGo_cancel_exit (T : ℚ) (M : Nat) (pr : Nat → ℚ)
    (fn : Nat → Bool) (fl : Nat → CycleStatus) (c tr oc : Nat) (cur : ℚ)
    (hc : c < M) (hfl : fl c = .cancelled) :
    cycleLoopGo T M pr fn fl c tr oc cur =
      ⟨.cancelled, c, 0, cur, tr, oc⟩ := by
  rw [cycleLoopGo, dif_pos hc, if_pos hfl]

lemma cycleLoopGo_prefix (T : ℚ) (M : Nat) (pr : Nat → ℚ)
    (fn : Nat → Bool) (fl : Nat → CycleStatus) :
    ∀ d c tr oc cur, c + d < M →
      (∀ j, c ≤ j → j < c + d → fl j = .running) →
      (∀ j, c < j → j ≤ c + d → pr j < T) →
      cycleLoopGo T M pr fn fl c tr oc cur =
        cycleLoopGo T M pr fn fl (c + d) (tr + d)
          (oc + (List.range' (c + 1) d).countP fn)
          (if 0 < d then pr (c + d) else cur) := by
  intro d
  induction d with
  | zero =>
    intro c tr oc cur hM hfl hpr
    simp [List.range']
  | succ d ih =>
    intro c tr oc cur hM hfl hpr
    have hc : c < M := by omega
    have hc1 : c + 1 < M := by omega
    have hflc : fl c = .running := hfl c (le_refl c) (by omega)
    conv_lhs => rw [cycleLoopGo]
    rw [dif_pos hc, if_neg (by rw [hflc]; simp), if_neg (by rw [hflc]; simp),
      if_neg (not_le.mpr (hpr (c + 1) (by omega) (by omega)))]
    rw [ih (c + 1) (tr + 1)
      (if c + 1 < M ∧ fn (c + 1) = true then oc + 1 else oc) (pr (c + 1))
      (by omega)
      (fun j hj1 hj2 => hfl j (by omega) (by omega))
      (fun j hj1 hj2 => hpr j (by omega) (by omega))]
    have hC : (if c + 1 < M ∧ fn (c + 1) = true then oc + 1 else oc) +
        (List.range' (c + 1 + 1) d).countP fn =
        oc + (List.range' (c + 1) (d + 1)).countP fn := by
      rw [List.range'_succ, List.countP_cons]
      by_cases hb : fn (c + 1) = true
      · rw [if_pos ⟨hc1, hb⟩, hb]
        simp
        omega
      · rw [if_neg (fun hand => hb hand.2), if_neg hb]
        simp
    have hD : (if 0 < d then pr (c + 1 + d) else pr (c + 1)) =
        (if 0 < d + 1 then pr (c + (d + 1)) else cur) := by
      rw [if_pos (by omega : 0 < d + 1)]
      by_cases hd0 : 0 < d
      · rw [if_pos hd0]
        congr 1
        omega
      · rw [if_neg hd0]
        have : d = 0 := by omega
        subst this
        rfl
    rw [hC, hD]
    have hA : c + 1 + d = c + (d + 1) := by omega
    have hB : tr + 1 + d = tr + (d + 1) := by omega
    rw [hA, hB]

/-- C1: with maxCycles M ≥ 1, when no pause or cancel is ever requested
and every measured pass rate stays below the threshold, the loop
terminates with persisted status `completed` and cycleCount = M after
exactly M test-run iterations, invoking the optimizer at most M − 1
times; moreover no execution whatsoever (any flags, rates, failure
patterns) performs more than M test-run iterations.  Termination itself
is inherent: the loop is a total function of its fuel `M − cycleCount`. -/
theorem cycle_cap_termination (T : ℚ) (M : Nat) (pr : Nat → ℚ)
    (fn : Nat → Bool) (fl : Nat → CycleStatus) (hM : 1 ≤ M)
    (hflag : ∀ k, fl k = .running) (hrate : ∀ k, pr k < T) :
    (runCycleLoop T M pr fn fl).status = .completed ∧
    (runCycleLoop T M pr fn fl).cycleCount = M ∧
    (runCycleLoop T M pr fn fl).testRuns = M ∧
    (runCycleLoop T M pr fn fl).optCalls ≤ M - 1 ∧
    (∀ (pr2 : Nat → ℚ) (fn2 : Nat → Bool) (fl2 : Nat → CycleStatus),
      (runCycleLoop T M pr2 fn2 fl2).testRuns ≤ M) := by
  obtain ⟨hS, hC, hT, hO⟩ :=
    cycleLoopGo_cap T M pr fn fl hflag hrate M 0 0 0 0 rfl (by omega)
  refine ⟨hS, hC, ?_, ?_, ?_⟩
  · rw [runCycleLoop, hT]
    omega
  · rw [runCycleLoop, hO]
    have h1 := List.countP_le_length (p := fn) (l := List.range' (0 + 1) (M - 1 - 0))
    rw [List.length_range'] at h1
    omega
  · intro pr2 fn2 fl2
    have h2 := cycleLoopGo_testRuns_le T M pr2 fn2 fl2 M 0 0 0 0 rfl
    rw [runCycleLoop]
    omega

/-- Witness for C1 at T = 1, M = 2, constant pass rate 1/2. -/
theorem cycle_cap_termination_witness :
    (runCycleLoop 1 2 (fun _ => 1/2) (fun _ => true)
      (fun _ => CycleStatus.running)).status = .completed ∧
    (runCycleLoop 1 2 (fun _ => 1/2) (fun _ => true)
      (fun _ => CycleStatus.running)).cycleCount = 2 ∧
    (runCycleLoop 1 2 (fun _ => 1/2) (fun _ => true)
      (fun _ => CycleStatus.running)).testRuns = 2 ∧
    (runCycleLoop 1 2 (fun _ => 1/2) (fun _ => true)
      (fun _ => CycleStatus.running)).optCalls ≤ 1 := by
  obtain ⟨h1, h2, h3, h4, _⟩ := cycle_cap_termination 1 2 (fun _ => 1/2)
    (fun _ => true) (fun _ => CycleStatus.running) (by omega) (fun _ => rfl)
    (fun _ => by norm_num)
  exact ⟨h1, h2, h3, h4⟩

/-- C2: when the loop reaches iteration k < M (flags running before it,
earlier pass rates below threshold) and iteration k's freshly measured
pass rate meets the threshold, the loop persists `completed` with
cycleCount = k, runs exactly k test runs (iteration k+1 never starts),
and its optimizer-call count comes only from iterations 1..k−1 — the
threshold check precedes any optimization call of iteration k. -/
theorem cycle_threshold_stop (T : ℚ) (M : Nat) (pr : Nat → ℚ)
    (fn : Nat → Bool) (fl : Nat → CycleStatus) (k : Nat)
    (hk1 : 1 ≤ k) (hkM : k < M)
    (hflag : ∀ j, j < k → fl j = .running)
    (hbelow : ∀ j, 1 ≤ j → j < k → pr j < T)
    (hhit : T ≤ pr k) :
    (runCycleLoop T M pr fn fl).status = .completed ∧
    (runCycleLoop T M pr fn fl).cycleCount = k ∧
    (runCycleLoop T M pr fn fl).testRuns = k ∧
    (runCycleLoop T M pr fn fl).endingPassRate = pr k ∧
    (runCycleLoop T M pr fn fl).optCalls =
      (List.range' 1 (k - 1)).countP fn := by
  have hk : 0 + (k - 1) + 1 = k := by omega
  have hpre := cycleLoopGo_prefix T M pr fn fl (k - 1) 0 0 0 0
    (by omega)
    (fun j hj1 hj2 => hflag j (by omega))
    (fun j hj1 hj2 => hbelow j (by omega) (by omega))
  have hexit := cycleLoopGo_threshold_exit T M pr fn fl (0 + (k - 1))
    (0 + (k - 1)) (0 + (List.range' (0 + 1) (k - 1)).countP fn)
    (if 0 < k - 1 then pr (0 + (k - 1)) else 0)
    (by omega) (hflag (0 + (k - 1)) (by omega)) (by rw [hk]; exact hhit)
  rw [runCycleLoop, hpre, hexit]
  refine ⟨rfl, by show 0 + (k - 1) + 1 = k; omega,
    by show 0 + (k - 1) + 1 = k; omega, by show pr (0 + (k - 1) + 1) = pr k; rw [hk],
    ?_⟩
  show 0 + (List.range' (0 + 1) (k - 1)).countP fn = (List.range' 1 (k - 1)).countP fn
  simp

/-- Witness for C2: T = 1/2, M = 3, pass rates 0, 1/2, … — the loop
stops at iteration 2 with status completed. -/
theorem cycle_threshold_stop_witness :
    (runCycleLoop (1/2) 3 (fun j => if j = 2 then 1/2 else 0) (fun _ => true)
      (fun _ => CycleStatus.running)).status = .completed ∧
    (runCycleLoop (1/2) 3 (fun j => if j = 2 then 1/2 else 0) (fun _ => true)
      (fun _ => CycleStatus.running)).cycleCount = 2 ∧
    (runCycleLoop (1/2) 3 (fun j => if j = 2 then 1/2 else 0) (fun _ => true)
      (fun _ => CycleStatus.running)).testRuns = 2 ∧
    (runCycleLoop (1/2) 3 (fun j => if j = 2 then 1/2 else 0) (fun _ => true)
      (fun _ => CycleStatus.running)).endingPassRate =
        (fun j => if j = 2 then (1/2 : ℚ) else 0) 2 ∧
    (runCycleLoop (1/2) 3 (fun j => if j = 2 then 1/2 else 0) (fun _ => true)
      (fun _ => CycleStatus.running)).optCalls =
        (List.range' 1 (2 - 1)).countP (fun _ => true) :=
  cycle_threshold_stop (1/2) 3 (fun j => if j = 2 then 1/2 else 0)
    (fun _ => true) (fun _ => CycleStatus.running) 2 (by omega) (by omega)
    (fun j _ => rfl)
    (fun j hj1 hj2 => by
      interval_cases j
      norm_num)
    (by norm_num)

/-- The flag history of a cancellation requested during iteration 1 of
a cycle: the check before iteration 1 still reads `running`, every
later check reads `cancelled`. -/
def cancelDuringIterationOneFlag : Nat → CycleStatus :=
  fun j => if j = 0 then .running else .cancelled

/-- C3 counterexample: with maxCycles = 1, a cancellation requested
during the final iteration (flag reads `cancelled` from check 1 on,
as the second conjunct records) is never observed: the loop exits by
the iteration cap and persists status `completed`, not `cancelled`. -/
theorem cycle_cancel_during_final_iteration_completes :
    runCycleLoop 1 1 (fun _ => 0) (fun _ => true) cancelDuringIterationOneFlag =
      ⟨.completed, 1, 0, 0, 1, 0⟩ ∧
    cancelDuringIterationOneFlag 1 = .cancelled := by
  constructor
  · rw [runCycleLoop, cycleLoopGo]
    norm_num [cancelDuringIterationOneFlag]
    rw [cycleLoopGo]
    norm_num
    simp
  · rfl

/-- C3 (amended): if cancellation is requested during iteration k — the
checks before iterations 1..k read `running`, the check after iteration
k reads `cancelled` — and the interrupted run is neither the final
iteration (k < maxCycles) nor one whose fresh pass rate meets the
threshold, then iteration k's test run completes and is persisted
(testRuns = k), and the final persisted status is `cancelled` with
cycleCount = k and endingPassRate = pass rate of iteration k; the flag
is only examinable between iterations (it enters the model only at
loop-top checks), and on every execution the final persisted status is
never `running`.  Without the two italicised exclusions the claim fails:
see the counterexample, where the cap exit persists `completed`. -/
theorem cycle_cancel_cooperative (T : ℚ) (M : Nat) (pr : Nat → ℚ)
    (fn : Nat → Bool) (fl : Nat → CycleStatus) (k : Nat)
    (hk1 : 1 ≤ k) (hkM : k < M)
    (hflag : ∀ j, j < k → fl j = .running)
    (hflagk : fl k = .cancelled)
    (hbelow : ∀ j, 1 ≤ j → j ≤ k → pr j < T) :
    (runCycleLoop T M pr fn fl).status = .cancelled ∧
    (runCycleLoop T M pr fn fl).cycleCount = k ∧
    (runCycleLoop T M pr fn fl).testRuns = k ∧
    (runCycleLoop T M pr fn fl).endingPassRate = pr k ∧
    (∀ (pr2 : Nat → ℚ) (fn2 : Nat → Bool) (fl2 : Nat → CycleStatus),
      (runCycleLoop T M pr2 fn2 fl2).status ≠ .running) := by
  have hpre := cycleLoopGo_prefix T M pr fn fl k 0 0 0 0
    (by omega)
    (fun j hj1 hj2 => hflag j (by omega))
    (fun j hj1 hj2 => hbelow j (by omega) (by omega))
  have hexit := cycleLoopGo_cancel_exit T M pr fn fl (0 + k) (0 + k)
    (0 + (List.range' (0 + 1) k).countP fn)
    (if 0 < k then pr (0 + k) else 0)
    (by omega) (by rw [show 0 + k = k by omega]; exact hflagk)
  rw [runCycleLoop, hpre, hexit]
  refine ⟨rfl, by show 0 + k = k; omega, by show 0 + k = k; omega, ?_, ?_⟩
  · show (if 0 < k then pr (0 + k) else 0) = pr k
    rw [if_pos (by omega)]
    congr 1
    omega
  · intro pr2 fn2 fl2
    exact cycleLoopGo_status_terminal T M pr2 fn2 fl2 M 0 0 0 0 rfl

/-- Witness for C3 (amended) at M = 2 with cancellation requested
during iteration 1. -/
theorem cycle_cancel_cooperative_witness :
    (runCycleLoop 1 2 (fun _ => 0) (fun _ => true)
      cancelDuringIterationOneFlag).status = .cancelled ∧
    (runCycleLoop 1 2 (fun _ => 0) (fun _ => true)
      cancelDuringIterationOneFlag).cycleCount = 1 ∧
    (runCycleLoop 1 2 (fun _ => 0) (fun _ => true)
      cancelDuringIterationOneFlag).testRuns = 1 ∧
    (runCycleLoop 1 2 (fun _ => 0) (fun _ => true)
      cancelDuringIterationOneFlag).endingPassRate = 0 := by
  obtain ⟨h1, h2, h3, h4, _⟩ := cycle_cancel_cooperative 1 2 (fun _ => 0)
    (fun _ => true) cancelDuringIterationOneFlag 1 (by omega) (by omega)
    (fun j hj => by interval_cases j; rfl) rfl
    (fun j hj1 hj2 => by norm_num)
  exact ⟨h1, h2, h3, h4⟩

/-! ### C8, C10: the diff engine -/

lemma splitLines_ne_nil (s : JStr) : splitLines s ≠ [] := by
  cases s with
  | nil => simp [splitLines]
  | cons c rest =>
    rw [splitLines]
    split
    · simp
    · split <;> simp

lemma joinLines_cons_cons (x : Char) (l : JStr) (ls : List JStr) :
    joinLines ((x :: l) :: ls) = x :: joinLines (l :: ls) := by
  cases ls <;> simp [joinLines]

lemma joinLines_splitLines (s : JStr) : joinLines (splitLines s) = s := by
  induction s with
  | nil => rfl
  | cons c rest ih =>
    rw [splitLines]
    by_cases hc : c = '\n'
    · rw [if_pos hc]
      cases hls : splitLines rest with
      | nil => exact absurd hls (splitLines_ne_nil rest)
      | cons l ls =>
        show '\n' :: joinLines (l :: ls) = c :: rest
        rw [hc, ← hls, ih]
    · rw [if_neg hc]
      cases hls : splitLines rest with
      | nil => exact absurd hls (splitLines_ne_nil rest)
      | cons l ls =>
        show joinLines ((c :: l) :: ls) = c :: rest
        rw [joinLines_cons_cons, ← hls, ih]

lemma splitLines_injective {s t : JStr} (h : splitLines s = splitLines t) :
    s = t := by
  rw [← joinLines_splitLines s, ← joinLines_splitLines t, h]

lemma getD_of_lt {α : Type} (l : List α) (n : Nat) (d : α) (h : n < l.length) :
    l.getD n d = l[n] := by
  rw [List.getD_eq_getElem?_getD, List.getElem?_eq_getElem h]
  rfl

lemma drop_eq_getD_cons {α : Type} {l : List α} {n : Nat} (d : α)
    (h : n < l.length) : l.drop n = l.getD n d :: l.drop (n + 1) := by
  rw [getD_of_lt l n d h]
  exact List.drop_eq_getElem_cons h

lemma sublist_of_cons_sublist_cons_ne {α : Type} {x y : α} {l1 l2 : List α}
    (hne : x ≠ y) (h : List.Sublist (x :: l1) (y :: l2)) :
    List.Sublist (x :: l1) l2 := by
  cases h with
  | cons _ h => exact h
  | cons₂ => exact absurd rfl hne

lemma lcsBack_sublist (a b : List JStr) :
    ∀ i, i ≤ a.length → ∀ j, j ≤ b.length →
      List.Sublist (lcsBack a b i j) (a.take i) ∧
        List.Sublist (lcsBack a b i j) (b.take j) := by
  intro i
  induction i with
  | zero =>
    intro _ j _
    exact ⟨List.nil_sublist _, List.nil_sublist _⟩
  | succ i ihi =>
    intro hi j
    induction j with
    | zero =>
      intro _
      exact ⟨List.nil_sublist _, List.nil_sublist _⟩
    | succ j ihj =>
      intro hj
      have hi' : i < a.length := by omega
      have hj' : j < b.length := by omega
      show List.Sublist (lcsBackGo a b i (lcsBack a b i) (j + 1)) _ ∧
        List.Sublist (lcsBackGo a b i (lcsBack a b i) (j + 1)) _
      rw [lcsBackGo]
      split
      · -- heads equal: extend the recursive result by one element
        rename_i hxy
        obtain ⟨hA, hB⟩ := ihi (by omega) j (by omega)
        constructor
        · have htake : a.take (i + 1) = a.take i ++ [a.getD i []] := by
            rw [List.take_succ, List.getElem?_eq_getElem hi', getD_of_lt a i [] hi']
            rfl
          rw [htake]
          exact List.Sublist.append hA (List.Sublist.refl _)
        · have htake : b.take (j + 1) = b.take j ++ [b.getD j []] := by
            rw [List.take_succ, List.getElem?_eq_getElem hj', getD_of_lt b j [] hj']
            rfl
          rw [htake, hxy]
          exact List.Sublist.append hB (List.Sublist.refl _)
      · split
        · -- move up in the table
          obtain ⟨hA, hB⟩ := ihi (by omega) (j + 1) (by omega)
          refine ⟨List.Sublist.trans hA ?_, hB⟩
          rw [List.take_succ]
          exact List.sublist_append_left _ _
        · -- move left in the table
          obtain ⟨hA, hB⟩ := ihj (by omega)
          refine ⟨hA, List.Sublist.trans hB ?_⟩
          rw [List.take_succ]
          exact List.sublist_append_left _ _

lemma buildLCS_sublist (a b : List JStr) :
    List.Sublist (buildLCS a b) a ∧ List.Sublist (buildLCS a b) b := by
  obtain ⟨hA, hB⟩ := lcsBack_sublist a b a.length (le_refl _) b.length (le_refl _)
  rw [List.take_length] at hA hB
  exact ⟨hA, hB⟩

lemma diffWalk_spec (o r lcs : List JStr) :
    ∀ fuel oi ri li,
      List.Sublist (lcs.drop li) (o.drop oi) →
      List.Sublist (lcs.drop li) (r.drop ri) →
      (o.length - oi) + (r.length - ri) ≤ fuel →
      ∃ changes, diffWalk o r lcs fuel oi ri li = some changes ∧
        (changes.filter (fun ch => decide (ch.type = DiffType.context ∨
          ch.type = DiffType.removed))).map (fun ch => ch.content) = o.drop oi ∧
        (changes.filter (fun ch => decide (ch.type = DiffType.context ∨
          ch.type = DiffType.added))).map (fun ch => ch.content) = r.drop ri := by
  intro fuel
  induction fuel with
  | zero =>
    intro oi ri li h1 h2 hf
    have hno : ¬ (oi < o.length ∨ ri < r.length) := by omega
    refine ⟨[], ?_, ?_, ?_⟩
    · rw [diffWalk, if_neg hno]
    · rw [List.drop_eq_nil_of_le (by omega)]
      rfl
    · rw [List.drop_eq_nil_of_le (by omega)]
      rfl
  | succ fuel ih =>
    intro oi ri li h1 h2 hf
    by_cases hloop : oi < o.length ∨ ri < r.length
    · rw [diffWalk, if_pos hloop]
      by_cases hA : li < lcs.length ∧ oi < o.length ∧ ri < r.length ∧
          o.getD oi [] = lcs.getD li [] ∧ r.getD ri [] = lcs.getD li []
      · rw [if_pos hA]
        obtain ⟨hli, hoi, hri, ho, hr⟩ := hA
        have h1' : List.Sublist (lcs.drop (li + 1)) (o.drop (oi + 1)) := by
          rw [drop_eq_getD_cons [] hli, drop_eq_getD_cons [] hoi, ho] at h1
          exact List.cons_sublist_cons.mp h1
        have h2' : List.Sublist (lcs.drop (li + 1)) (r.drop (ri + 1)) := by
          rw [drop_eq_getD_cons [] hli, drop_eq_getD_cons [] hri, hr] at h2
          exact List.cons_sublist_cons.mp h2
        obtain ⟨changes, heq, hL, hR⟩ := ih (oi + 1) (ri + 1) (li + 1) h1' h2'
          (by omega)
        refine ⟨⟨.context, ri + 1, lcs.getD li []⟩ :: changes, ?_, ?_, ?_⟩
        · rw [heq]
          rfl
        · rw [List.filter_cons_of_pos rfl, List.map_cons, hL,
            drop_eq_getD_cons ([] : JStr) hoi, ho]
        · rw [List.filter_cons_of_pos rfl, List.map_cons, hR,
            drop_eq_getD_cons ([] : JStr) hri, hr]
      · rw [if_neg hA]
        by_cases hB : oi < o.length ∧
            (lcs.length ≤ li ∨ o.getD oi [] ≠ lcs.getD li [])
        · rw [if_pos hB]
          obtain ⟨hoi, hBor⟩ := hB
          have h1' : List.Sublist (lcs.drop li) (o.drop (oi + 1)) := by
            rcases Nat.lt_or_ge li lcs.length with hli | hli
            · have hne : o.getD oi [] ≠ lcs.getD li [] := by
                rcases hBor with hge | hne
                · omega
                · exact hne
              rw [drop_eq_getD_cons ([] : JStr) hli,
                drop_eq_getD_cons ([] : JStr) hoi] at h1
              rw [drop_eq_getD_cons ([] : JStr) hli]
              exact sublist_of_cons_sublist_cons_ne (fun he => hne he.symm) h1
            · rw [List.drop_eq_nil_of_le hli]
              exact List.nil_sublist _
          obtain ⟨changes, heq, hL, hR⟩ := ih (oi + 1) ri li h1' h2 (by omega)
          refine ⟨⟨.removed, oi + 1, o.getD oi []⟩ :: changes, ?_, ?_, ?_⟩
          · rw [heq]
            rfl
          · rw [List.filter_cons_of_pos rfl, List.map_cons, hL,
              drop_eq_getD_cons ([] : JStr) hoi]
          · rw [List.filter_cons_of_neg Bool.false_ne_true]
            exact hR
        · rw [if_neg hB]
          by_cases hC : ri < r.length ∧
              (lcs.length ≤ li ∨ r.getD ri [] ≠ lcs.getD li [])
          · rw [if_pos hC]
            obtain ⟨hri, hCor⟩ := hC
            have h2' : List.Sublist (lcs.drop li) (r.drop (ri + 1)) := by
              rcases Nat.lt_or_ge li lcs.length with hli | hli
              · have hne : r.getD ri [] ≠ lcs.getD li [] := by
                  rcases hCor with hge | hne
                  · omega
                  · exact hne
                rw [drop_eq_getD_cons ([] : JStr) hli,
                  drop_eq_getD_cons ([] : JStr) hri] at h2
                rw [drop_eq_getD_cons ([] : JStr) hli]
                exact sublist_of_cons_sublist_cons_ne (fun he => hne he.symm) h2
              · rw [List.drop_eq_nil_of_le hli]
                exact List.nil_sublist _
            obtain ⟨changes, heq, hL, hR⟩ := ih oi (ri + 1) li h1 h2' (by omega)
            refine ⟨⟨.added, ri + 1, r.getD ri []⟩ :: changes, ?_, ?_, ?_⟩
            · rw [heq]
              rfl
            · rw [List.filter_cons_of_neg Bool.false_ne_true]
              exact hL
            · rw [List.filter_cons_of_pos rfl, List.map_cons, hR,
                drop_eq_getD_cons ([] : JStr) hri]
          · -- With the LCS invariant this state cannot be reached: one of
            -- the three branches always fires while the loop condition
            -- holds, which is exactly why the source's walk terminates.
            exfalso
            have hmain : li < lcs.length ∧ oi < o.length ∧ ri < r.length ∧
                o.getD oi [] = lcs.getD li [] ∧
                r.getD ri [] = lcs.getD li [] := by
              rcases hloop with hoi | hri
              · have hob : li < lcs.length ∧ o.getD oi [] = lcs.getD li [] := by
                  by_contra hcon
                  rw [not_and_or] at hcon
                  apply hB
                  refine ⟨hoi, ?_⟩
                  rcases hcon with h | h
                  · exact Or.inl (by omega)
                  · exact Or.inr h
                have hri : ri < r.length := by
                  by_contra hcon
                  rw [List.drop_eq_nil_of_le (show r.length ≤ ri by omega)] at h2
                  rw [List.sublist_nil] at h2
                  rw [drop_eq_getD_cons ([] : JStr) hob.1] at h2
                  exact absurd h2 (by simp)
                have hrb : li < lcs.length ∧ r.getD ri [] = lcs.getD li [] := by
                  by_contra hcon
                  rw [not_and_or] at hcon
                  apply hC
                  refine ⟨hri, ?_⟩
                  rcases hcon with h | h
                  · exact Or.inl (by omega)
                  · exact Or.inr h
                exact ⟨hob.1, hoi, hri, hob.2, hrb.2⟩
              · have hrb : li < lcs.length ∧ r.getD ri [] = lcs.getD li [] := by
                  by_contra hcon
                  rw [not_and_or] at hcon
                  apply hC
                  refine ⟨hri, ?_⟩
                  rcases hcon with h | h
                  · exact Or.inl (by omega)
                  · exact Or.inr h
                have hoi : oi < o.length := by
                  by_contra hcon
                  rw [List.drop_eq_nil_of_le (show o.length ≤ oi by omega)] at h1
                  rw [List.sublist_nil] at h1
                  rw [drop_eq_getD_cons ([] : JStr) hrb.1] at h1
                  exact absurd h1 (by simp)
                have hob : li < lcs.length ∧ o.getD oi [] = lcs.getD li [] := by
                  by_contra hcon
                  rw [not_and_or] at hcon
                  apply hB
                  refine ⟨hoi, ?_⟩
                  rcases hcon with h | h
                  · exact Or.inl (by omega)
                  · exact Or.inr h
                exact ⟨hrb.1, hoi, hri, hob.2, hrb.2⟩
            exact hA ⟨hmain.1, hmain.2.1, hmain.2.2.1, hmain.2.2.2.1,
              hmain.2.2.2.2⟩
    · rw [diffWalk, if_neg hloop]
      refine ⟨[], rfl, ?_, ?_⟩
      · rw [List.drop_eq_nil_of_le (by omega)]
        rfl
      · rw [List.drop_eq_nil_of_le (by omega)]
        rfl

/-- C8: the diff engine produces an empty change list exactly for equal
inputs, and for distinct inputs a non-empty list containing at least
one `added` or `removed` entry (`some` reflects that the walk
terminates, which holds for every input by `diffWalk_spec`). -/
theorem computeDiff_empty_iff_equal (original revised : JStr) :
    (computeDiff original revised = some [] ↔ original = revised) ∧
    (original ≠ revised →
      ∃ changes, computeDiff original revised = some changes ∧ changes ≠ [] ∧
        ∃ ch ∈ changes, ch.type = DiffType.added ∨ ch.type = DiffType.removed) := by
  have hne : original ≠ revised →
      ∃ changes, computeDiff original revised = some changes ∧ changes ≠ [] ∧
        ∃ ch ∈ changes, ch.type = DiffType.added ∨ ch.type = DiffType.removed := by
    intro h
    obtain ⟨hsubO, hsubR⟩ :=
      buildLCS_sublist (splitLines original) (splitLines revised)
    obtain ⟨changes, heq, hL, hR⟩ := diffWalk_spec (splitLines original)
      (splitLines revised) (buildLCS (splitLines original) (splitLines revised))
      ((splitLines original).length + (splitLines revised).length) 0 0 0
      (by simpa using hsubO) (by simpa using hsubR) (by omega)
    rw [List.drop_zero] at hL hR
    have hcd : computeDiff original revised = some changes := by
      rw [computeDiff, if_neg h]
      exact heq
    refine ⟨changes, hcd, ?_, ?_⟩
    · intro hnil
      subst hnil
      exact splitLines_ne_nil original hL.symm
    · by_contra hno
      push_neg at hno
      have hctx : ∀ ch ∈ changes, ch.type = DiffType.context := by
        intro ch hch
        have := hno ch hch
        cases htype : ch.type
        · exact absurd htype this.1
        · exact absurd htype this.2
        · rfl
      have hfL : changes.filter (fun ch => decide (ch.type = DiffType.context ∨
          ch.type = DiffType.removed)) = changes := by
        rw [List.filter_eq_self]
        intro ch hch
        rw [hctx ch hch]
        rfl
      have hfR : changes.filter (fun ch => decide (ch.type = DiffType.context ∨
          ch.type = DiffType.added)) = changes := by
        rw [List.filter_eq_self]
        intro ch hch
        rw [hctx ch hch]
        rfl
      rw [hfL] at hL
      rw [hfR] at hR
      exact h (splitLines_injective (hL.symm.trans hR))
  refine ⟨⟨?_, ?_⟩, hne⟩
  · intro hsome
    by_contra hneq
    obtain ⟨changes, heq, hnil, _⟩ := hne hneq
    rw [heq] at hsome
    injection hsome with hsome
    exact hnil hsome
  · intro heq2
    rw [computeDiff, if_pos heq2]

/-- Witness for C8: equal concrete inputs yield `some []`. -/
theorem computeDiff_empty_iff_equal_witness :
    computeDiff ['a'] ['a'] = some [] :=
  (computeDiff_empty_iff_equal ['a'] ['a']).1.mpr rfl

/-- C10: for distinct inputs, the diff output covers both inputs
exactly — in output order, the contents of the `context`/`removed`
entries are precisely the lines of the original string, and the
contents of the `context`/`added` entries are precisely the lines of
the revised string. -/
theorem computeDiff_covers_inputs (original revised : JStr)
    (h : original ≠ revised) (changes : List DiffChange)
    (hc : computeDiff original revised = some changes) :
    (changes.filter (fun ch => decide (ch.type = DiffType.context ∨
      ch.type = DiffType.removed))).map (fun ch => ch.content) =
        splitLines original ∧
    (changes.filter (fun ch => decide (ch.type = DiffType.context ∨
      ch.type = DiffType.added))).map (fun ch => ch.content) =
        splitLines revised := by
  obtain ⟨hsubO, hsubR⟩ :=
    buildLCS_sublist (splitLines original) (splitLines revised)
  obtain ⟨changes2, heq, hL, hR⟩ := diffWalk_spec (splitLines original)
    (splitLines revised) (buildLCS (splitLines original) (splitLines revised))
    ((splitLines original).length + (splitLines revised).length) 0 0 0
    (by simpa using hsubO) (by simpa using hsubR) (by omega)
  rw [List.drop_zero] at hL hR
  have hcd : computeDiff original revised = some changes2 := by
    rw [computeDiff, if_neg h]
    exact heq
  rw [hcd] at hc
  injection hc with hc
  subst hc
  exact ⟨hL, hR⟩

/-- Witness for C10 at the concrete pair "a" / "b": the diff is one
removal and one addition, whose projections give back each side. -/
theorem computeDiff_covers_inputs_witness :
    (([⟨DiffType.removed, 1, ['a']⟩, ⟨DiffType.added, 1, ['b']⟩] :
        List DiffChange).filter (fun ch => decide (ch.type = DiffType.context ∨
      ch.type = DiffType.removed))).map (fun ch => ch.content) =
        splitLines ['a'] ∧
    (([⟨DiffType.removed, 1, ['a']⟩, ⟨DiffType.added, 1, ['b']⟩] :
        List DiffChange).filter (fun ch => decide (ch.type = DiffType.context ∨
      ch.type = DiffType.added))).map (fun ch => ch.content) =
        splitLines ['b'] :=
  computeDiff_covers_inputs ['a'] ['b'] (by decide)
    [⟨DiffType.removed, 1, ['a']⟩, ⟨DiffType.added, 1, ['b']⟩] (by decide)
